import Mathlib

/-!
# The kqueue polling policy of cheetah (`src/polling_kqueue.c`)

A shallow embedding of the kqueue backend of the reactor and proofs about it.

Conventions of the embedding.

* The fields of `struct kqueue_internal` and the return values that are `int`
  in C are `Int` here, and `++`, `--` and `<< 1` are exact integer arithmetic.
  This agrees with C as long as the values stay inside the range of `int`
  (the capacity reaches `2^30` only after `2^30` accepted registrations).
* Everything the code obtains from its environment is an explicit argument:
  the answer of `malloc`, `kqueue`, `realloc` and of each `kevent` call, the
  readiness records the kernel stores, and the descriptor lookup table.
* Everything the code does to its environment is recorded, in program order,
  in a trace of `Effect`s.
* The constants of `<sys/event.h>` and of the reactor's own headers are not
  part of the translated file; they are the fields of `Consts`.
* The functions are entered with `r` and `r->policy_data` non-null, which is
  the case for an initialised backend; the guards for a null `r` or `pki`
  are therefore not reached.
-/

namespace Cheetah

/-- Constants used by `polling_kqueue.c` and declared elsewhere: the interest
flags of the reactor (`E_READ`, `E_WRITE`, `E_EDGE`, `E_ONCE`), the filters,
actions and flags of `<sys/event.h>`, and the largest `uintptr_t`. -/
structure Consts where
  E_READ : Nat
  E_WRITE : Nat
  E_EDGE : Nat
  E_ONCE : Nat
  EVFILT_READ : Int
  EVFILT_WRITE : Int
  EV_ADD : Nat
  EV_DELETE : Nat
  EV_ONESHOT : Nat
  EV_ERROR : Nat
  UINTPTR_MAX : Nat
deriving DecidableEq, Repr

/-- The record `struct kevent` of `<sys/event.h>`; `udata` is a pointer, and
`0` stands for `NULL`. -/
structure kevent where
  ident : Nat
  filter : Int
  flags : Nat
  fflags : Nat
  data : Int
  udata : Nat
deriving DecidableEq, Repr

/-- The macro `EV_SET(&e, ident, filter, flags, fflags, data, udata)` of
`<sys/event.h>`: it stores its arguments, in this order, in the fields
`ident`, `filter`, `flags`, `fflags`, `data` and `udata`. -/
def EV_SET (a : Nat) (b : Int) (c d : Nat) (e : Int) (f : Nat) : kevent :=
  { ident := a, filter := b, flags := c, fflags := d, data := e, udata := f }

/-- The record `struct timespec` handed to the wait call. -/
structure timespec where
  tv_sec : Int
  tv_nsec : Int
deriving DecidableEq, Repr

/-- The record `struct timeval` received by `kqueue_poll`. -/
structure timeval where
  tv_sec : Int
  tv_usec : Int
deriving DecidableEq, Repr

/-- Modelled from the spec: the event record `struct event` of the reactor,
declared outside the translated file; a file descriptor, a set of interest
flags and an opaque handler reference. The backend only passes it on. -/
structure event where
  fd : Int
  ev_flags : Nat
  callback : Nat
deriving DecidableEq, Repr

/-- The struct `kqueue_internal`. The array `events` is a list of slots; a
slot is `none` while its content is indeterminate (allocated, never
written). -/
structure kqueue_internal where
  kqueue_fd : Int
  nevents : Int
  max_events : Int
  events : List (Option kevent)
deriving DecidableEq, Repr

/-- The diagnostics written with `LOG`, one constructor for each message. -/
inductive Diag where
  | realloc_failed
  | malloc_failed
  | kqueue_failed
  | init_resize_failed
  | edge_unsupported
  | resize_to (size : Int)
  | resize_failed
  | add_failed
  | del_failed
  | ev_error
  | not_in_hashtable (ident : Nat)
deriving DecidableEq, Repr

/-- What the code does to its environment. -/
inductive Effect where
  | LOG (d : Diag)
  | malloc
  | kqueue
  | close (fd : Int)
  | realloc (size : Int)
  | kevent_change (kq : Int) (e : kevent)
  | el_lock_unlock
  | kevent_wait (kq : Int) (nevents : Int) (t : Option timespec)
  | el_lock_lock
  | read_event (i : Nat)
  | event_ht_retrieve (ident : Nat)
  | reactor_add_to_pending (e : event) (res_flags : Nat)
deriving DecidableEq, Repr

/-- The initial capacity `KQUEUE_INIT_EVENT_SIZE`. -/
def KQUEUE_INIT_EVENT_SIZE : Int := 32

/-- The array after a successful `realloc` to `size` slots: the old slots up
to the new size, then slots of indeterminate content. -/
def realloc_events (events : List (Option kevent)) (size : Int) : List (Option kevent) :=
  events.take size.toNat ++ List.replicate (size.toNat - events.length) none

/-- Result of a call that returns an `int` and may change the backend. -/
structure CallResult where
  pki : kqueue_internal
  ret : Int
  trace : List Effect
deriving DecidableEq, Repr

/-- The function `kqueue_resize`; `realloc_ok` tells whether `realloc`
returned a block. -/
def kqueue_resize (pki : kqueue_internal) (size : Int) (realloc_ok : Bool) : CallResult :=
  if realloc_ok = false then
    { pki := pki, ret := -1, trace := [Effect.realloc size, Effect.LOG Diag.realloc_failed] }
  else
    { pki := { pki with events := realloc_events pki.events size, max_events := size },
      ret := 0,
      trace := [Effect.realloc size] }

/-- The function `kqueue_init`: `malloc_ok` tells whether `malloc` returned a
block, `kq` is the value of `kqueue()`, `realloc_ok` the outcome of the
`realloc` inside `kqueue_resize`. The result is the new backend, or `none`
for `NULL`. -/
def kqueue_init (malloc_ok : Bool) (kq : Int) (realloc_ok : Bool) :
    Option kqueue_internal × List Effect :=
  if malloc_ok = false then
    (none, [Effect.malloc, Effect.LOG Diag.malloc_failed])
  else
    let ret : kqueue_internal := { kqueue_fd := 0, nevents := 0, max_events := 0, events := [] }
    let ret := { ret with kqueue_fd := kq }
    if ret.kqueue_fd = -1 then
      (none, [Effect.malloc, Effect.kqueue, Effect.LOG Diag.kqueue_failed])
    else
      let rs := kqueue_resize ret KQUEUE_INIT_EVENT_SIZE realloc_ok
      if rs.ret = -1 then
        (none, [Effect.malloc, Effect.kqueue] ++ rs.trace ++
          [Effect.LOG Diag.init_resize_failed, Effect.close rs.pki.kqueue_fd])
      else
        (some rs.pki, [Effect.malloc, Effect.kqueue] ++ rs.trace)

/-- The function `kqueue_setup_filter`; `flags` is the bit pattern of the
`short` argument. -/
def kqueue_setup_filter (c : Consts) (flags : Nat) : Int :=
  let ret : Int := 0
  let ret := if flags &&& c.E_READ ≠ 0 then c.EVFILT_READ else ret
  let ret := if flags &&& c.E_WRITE ≠ 0 then c.EVFILT_WRITE else ret
  ret

/-- The conversion `ident = fd` of a descriptor to `uintptr_t`. -/
def ident_of (c : Consts) (fd : Int) : Nat :=
  (fd % ((c.UINTPTR_MAX : Int) + 1)).toNat

/-- The function `kqueue_add`: `realloc_ok` is the outcome of the `realloc`
(consulted only when the array is grown), `kevent_ret` the value returned by
the native `kevent` call (consulted only when the call is made). -/
def kqueue_add (c : Consts) (pki : kqueue_internal) (fd : Int) (flags : Nat)
    (realloc_ok : Bool) (kevent_ret : Int) : CallResult :=
  let t0 : List Effect :=
    if flags &&& c.E_EDGE ≠ 0 then [Effect.LOG Diag.edge_unsupported] else []
  let grow : CallResult :=
    if pki.nevents ≥ pki.max_events then
      let rs := kqueue_resize pki (pki.max_events * 2) realloc_ok
      { rs with trace := Effect.LOG (Diag.resize_to (pki.max_events * 2)) :: rs.trace }
    else
      { pki := pki, ret := 0, trace := [] }
  if grow.ret = -1 then
    { pki := grow.pki, ret := -1,
      trace := t0 ++ grow.trace ++ [Effect.LOG Diag.resize_failed] }
  else
    let pki := grow.pki
    let ident := ident_of c fd
    let filter := kqueue_setup_filter c flags
    let action := c.EV_ADD
    let e := EV_SET ident filter action (if flags &&& c.E_ONCE ≠ 0 then c.EV_ONESHOT else 0) 0 0
    let ret := kevent_ret
    if ret ≠ 0 then
      { pki := pki, ret := -1,
        trace := t0 ++ grow.trace ++
          [Effect.kevent_change pki.kqueue_fd e, Effect.LOG Diag.add_failed] }
    else
      { pki := { pki with nevents := pki.nevents + 1 }, ret := 0,
        trace := t0 ++ grow.trace ++ [Effect.kevent_change pki.kqueue_fd e] }

/-- The function `kqueue_del`; `kevent_ret` is the value returned by the
native `kevent` call. -/
def kqueue_del (c : Consts) (pki : kqueue_internal) (fd : Int) (flags : Nat)
    (kevent_ret : Int) : CallResult :=
  let ident := ident_of c fd
  let filter := kqueue_setup_filter c flags
  let action := c.EV_DELETE
  let e := EV_SET ident filter action 0 0 0
  let ret := kevent_ret
  if ret ≠ 0 then
    { pki := pki, ret := -1,
      trace := [Effect.kevent_change pki.kqueue_fd e, Effect.LOG Diag.del_failed] }
  else
    { pki := { pki with nevents := pki.nevents - 1 }, ret := 0,
      trace := [Effect.kevent_change pki.kqueue_fd e] }

/-- What the blocking `kevent` call of `kqueue_poll` did: it failed and
returned `-1`, or it stored the readiness records `recs` in
`pki->events[0 ..]` and returned their number. -/
inductive WaitOutcome where
  | failed
  | ready (recs : List kevent)
deriving DecidableEq, Repr

/-- The value `nreadys` returned by the wait call. -/
def WaitOutcome.nreadys : WaitOutcome → Int
  | WaitOutcome.failed => -1
  | WaitOutcome.ready recs => (recs.length : Int)

/-- The records the wait call stored at the front of the array. -/
def WaitOutcome.recs : WaitOutcome → List kevent
  | WaitOutcome.failed => []
  | WaitOutcome.ready recs => recs

/-- The array `pki->events` after the kernel stored `recs` at its front. -/
def store_events (events : List (Option kevent)) (recs : List kevent) : List (Option kevent) :=
  recs.map some ++ events.drop recs.length

/-- Result of `kqueue_poll`: `ret` is the returned value, or `none` when a
failed `assert` ended the process before the function returned. -/
structure PollResult where
  pki : kqueue_internal
  ret : Option Int
  trace : List Effect
deriving DecidableEq, Repr

/-- One pass through the body of the dispatch loop of `kqueue_poll`, for the
record `ev` read at `pki->events[i]`. `ndebug` tells whether the file was
compiled with `NDEBUG` (then `assert` expands to nothing); `eht` is the
lookup `event_ht_retrieve(&r->eht, ·)`. The first component is `false` when
`assert(e != NULL)` failed. -/
def kqueue_poll_body (c : Consts) (ndebug : Bool) (eht : Nat → Option event)
    (i : Nat) (ev : kevent) : Bool × List Effect :=
  let res_flags : Nat := 0
  let res_flags := if ev.filter = c.EVFILT_READ then c.E_READ else res_flags
  let res_flags := if ev.filter = c.EVFILT_WRITE then c.E_WRITE else res_flags
  let t : List Effect :=
    Effect.read_event i :: (if ev.flags = c.EV_ERROR then [Effect.LOG Diag.ev_error] else [])
  if res_flags ≠ 0 then
    match eht ev.ident with
    | none =>
      if ndebug = false then
        (false, t ++ [Effect.event_ht_retrieve ev.ident])
      else
        (true, t ++ [Effect.event_ht_retrieve ev.ident,
          Effect.LOG (Diag.not_in_hashtable ev.ident)])
    | some e =>
      (true, t ++ [Effect.event_ht_retrieve ev.ident, Effect.reactor_add_to_pending e res_flags])
  else
    (true, t)

/-- The dispatch loop `for(i = 0; i < nreadys; ++i)` of `kqueue_poll`, from
index `i` on, over the records still to be read. -/
def kqueue_poll_loop (c : Consts) (ndebug : Bool) (eht : Nat → Option event) :
    Nat → List kevent → Bool × List Effect
  | _, [] => (true, [])
  | i, ev :: rest =>
    let b := kqueue_poll_body c ndebug eht i ev
    if b.1 = false then
      (false, b.2)
    else
      let r := kqueue_poll_loop c ndebug eht (i + 1) rest
      (r.1, b.2 ++ r.2)

/-- The function `kqueue_poll`. The loop `for(i = 0; i < nreadys; ++i)` reads
`pki->events[0 .. nreadys-1]`, which are the records the wait call stored;
it does not run when the wait call returned `-1`. -/
def kqueue_poll (c : Consts) (ndebug : Bool) (eht : Nat → Option event)
    (pki : kqueue_internal) (timeout : Option timeval) (w : WaitOutcome) : PollResult :=
  let t : Option timespec :=
    timeout.map fun tv => { tv_sec := tv.tv_sec, tv_nsec := tv.tv_usec * 1000 }
  let nreadys := w.nreadys
  let lp := kqueue_poll_loop c ndebug eht 0 w.recs
  { pki := { pki with events := store_events pki.events w.recs },
    ret := if lp.1 = false then none else some nreadys,
    trace := [Effect.el_lock_unlock, Effect.kevent_wait pki.kqueue_fd pki.nevents t,
      Effect.el_lock_lock] ++ lp.2 }

/-! ## Sequences of calls -/

/-- A call of `kqueue_add` or `kqueue_del` together with the answers of the
environment during the call. -/
inductive Call where
  | add (fd : Int) (flags : Nat) (realloc_ok : Bool) (kevent_ret : Int)
  | del (fd : Int) (flags : Nat) (kevent_ret : Int)
deriving DecidableEq, Repr

/-- Whether the call is a `kqueue_add`. -/
def Call.is_add : Call → Bool
  | Call.add _ _ _ _ => true
  | Call.del _ _ _ => false

/-- Executes one call on the backend. -/
def Call.exec (c : Consts) (pki : kqueue_internal) : Call → CallResult
  | Call.add fd flags realloc_ok kevent_ret => kqueue_add c pki fd flags realloc_ok kevent_ret
  | Call.del fd flags kevent_ret => kqueue_del c pki fd flags kevent_ret

/-- One executed call: the call, the backend before it and its result. -/
structure Step where
  call : Call
  before : kqueue_internal
  result : CallResult
deriving DecidableEq, Repr

/-- The calls of a sequence as executed one after the other from `pki`. -/
def history (c : Consts) : kqueue_internal → List Call → List Step
  | _, [] => []
  | pki, x :: xs =>
    { call := x, before := pki, result := x.exec c pki } :: history c (x.exec c pki).pki xs

/-- The backend after a sequence of calls. -/
def run (c : Consts) : kqueue_internal → List Call → kqueue_internal
  | pki, [] => pki
  | pki, x :: xs => run c (x.exec c pki).pki xs

/-- Number of `kqueue_add` calls of the sequence that returned `0`. -/
def adds_succeeded (c : Consts) (pki : kqueue_internal) (calls : List Call) : Nat :=
  ((history c pki calls).filter fun s => s.call.is_add && decide (s.result.ret = 0)).length

/-- Number of `kqueue_del` calls of the sequence that returned `0`. -/
def dels_succeeded (c : Consts) (pki : kqueue_internal) (calls : List Call) : Nat :=
  ((history c pki calls).filter fun s => !s.call.is_add && decide (s.result.ret = 0)).length

/-- Number of calls of the sequence that changed the capacity. -/
def growths (c : Consts) (pki : kqueue_internal) (calls : List Call) : Nat :=
  ((history c pki calls).filter
    fun s => decide (s.result.pki.max_events ≠ s.before.max_events)).length

/-- The native subscription records submitted with `kevent` in a trace. -/
def kevent_changes : List Effect → List kevent
  | [] => []
  | Effect.kevent_change _ e :: t => e :: kevent_changes t
  | _ :: t => kevent_changes t

/-- The entries handed to `reactor_add_to_pending` in a trace, in order. -/
def pending_of : List Effect → List (event × Nat)
  | [] => []
  | Effect.reactor_add_to_pending e f :: t => (e, f) :: pending_of t
  | _ :: t => pending_of t

/-- The pending entries the claim on `kqueue_poll` asks for: one entry for
each record with the read or the write filter whose descriptor is in the
lookup table, in record order. -/
def expected_pending (c : Consts) (eht : Nat → Option event) (recs : List kevent) :
    List (event × Nat) :=
  recs.filterMap fun ev =>
    if ev.filter = c.EVFILT_READ then (eht ev.ident).map fun e => (e, c.E_READ)
    else if ev.filter = c.EVFILT_WRITE then (eht ev.ident).map fun e => (e, c.E_WRITE)
    else none

/-- Whether the reactor lock is held after a trace, given whether it was held
before. -/
def lock_held : Bool → List Effect → Bool
  | held, [] => held
  | _, Effect.el_lock_unlock :: t => lock_held false t
  | _, Effect.el_lock_lock :: t => lock_held true t
  | held, _ :: t => lock_held held t

/-- Whether every lookup-table read and every pending-list enqueue of a trace
happens while the reactor lock is held, given whether it is held at the
start. -/
def shared_access_locked : Bool → List Effect → Bool
  | _, [] => true
  | _, Effect.el_lock_unlock :: t => shared_access_locked false t
  | _, Effect.el_lock_lock :: t => shared_access_locked true t
  | held, Effect.event_ht_retrieve _ :: t => held && shared_access_locked held t
  | held, Effect.reactor_add_to_pending _ _ :: t => held && shared_access_locked held t
  | held, _ :: t => shared_access_locked held t

/-- An instance of the constants: the values of `<sys/event.h>` on FreeBSD
and macOS, a 64-bit `uintptr_t`, and one bit for each interest flag. -/
def bsd_consts : Consts :=
  { E_READ := 0x01, E_WRITE := 0x02, E_EDGE := 0x10, E_ONCE := 0x20,
    EVFILT_READ := -1, EVFILT_WRITE := -2,
    EV_ADD := 0x0001, EV_DELETE := 0x0002, EV_ONESHOT := 0x0010, EV_ERROR := 0x4000,
    UINTPTR_MAX := 2 ^ 64 - 1 }

/-- A lookup table that knows descriptor `7` only. -/
def table_fd7 : Nat → Option event :=
  fun k => if k = 7 then some { fd := 7, ev_flags := 1, callback := 0 } else none

/-- A freshly initialised backend on queue descriptor `3`. -/
def fresh_pki : kqueue_internal :=
  { kqueue_fd := 3, nevents := 0, max_events := 32, events := List.replicate 32 none }

/-- The backend after the accepted adds of descriptors `9` and `7` on a
fresh backend: two registrations. -/
def registered_pki : kqueue_internal :=
  run bsd_consts fresh_pki [Call.add 9 1 true 0, Call.add 7 1 true 0]

/-- The backend holds `n` registrations and its capacity is `32 * 2^k` with
`k = 0` or with half the capacity below `n`: the least such capacity that is
at least `n`. -/
def least_capacity (n : Int) (pki : kqueue_internal) : Prop :=
  pki.nevents = n ∧
    ∃ k : Nat, pki.max_events = 32 * 2 ^ k ∧ n ≤ pki.max_events ∧
      (k = 0 ∨ pki.max_events < 2 * n)

/-! ## Basic facts about single calls -/

theorem kqueue_init_some (m : Bool) (kq : Int) (r : Bool) (pki0 : kqueue_internal)
    (h : (kqueue_init m kq r).1 = some pki0) :
    pki0 = { kqueue_fd := kq, nevents := 0, max_events := 32,
             events := List.replicate 32 none } ∧ kq ≠ -1 := by
  unfold kqueue_init kqueue_resize at h
  by_cases hk : kq = -1 <;> cases m <;> cases r <;>
    simp [hk, realloc_events, KQUEUE_INIT_EVENT_SIZE] at h
  exact ⟨h.symm, hk⟩

theorem kqueue_add_ret (c : Consts) (pki : kqueue_internal) (fd : Int) (flags : Nat)
    (rok : Bool) (kret : Int) :
    (kqueue_add c pki fd flags rok kret).ret =
      if (pki.nevents ≥ pki.max_events ∧ rok = false) ∨ kret ≠ 0 then -1 else 0 := by
  by_cases hk : kret = 0 <;> by_cases hg : pki.max_events ≤ pki.nevents <;> cases rok <;>
    simp [kqueue_add, kqueue_resize, hk, hg]

theorem kqueue_add_nevents (c : Consts) (pki : kqueue_internal) (fd : Int) (flags : Nat)
    (rok : Bool) (kret : Int) :
    (kqueue_add c pki fd flags rok kret).pki.nevents =
      if (kqueue_add c pki fd flags rok kret).ret = 0 then pki.nevents + 1 else pki.nevents := by
  by_cases hk : kret = 0 <;> by_cases hg : pki.max_events ≤ pki.nevents <;> cases rok <;>
    simp [kqueue_add, kqueue_resize, hk, hg]

theorem kqueue_add_max_events (c : Consts) (pki : kqueue_internal) (fd : Int) (flags : Nat)
    (rok : Bool) (kret : Int) :
    (kqueue_add c pki fd flags rok kret).pki.max_events =
      if pki.nevents ≥ pki.max_events ∧ rok = true then pki.max_events * 2
      else pki.max_events := by
  by_cases hk : kret = 0 <;> by_cases hg : pki.max_events ≤ pki.nevents <;> cases rok <;>
    simp [kqueue_add, kqueue_resize, hk, hg]

theorem kqueue_del_ret (c : Consts) (pki : kqueue_internal) (fd : Int) (flags : Nat)
    (kret : Int) :
    (kqueue_del c pki fd flags kret).ret = if kret ≠ 0 then -1 else 0 := by
  by_cases hk : kret = 0 <;> simp [kqueue_del, hk]

theorem kqueue_del_nevents (c : Consts) (pki : kqueue_internal) (fd : Int) (flags : Nat)
    (kret : Int) :
    (kqueue_del c pki fd flags kret).pki.nevents =
      if (kqueue_del c pki fd flags kret).ret = 0 then pki.nevents - 1 else pki.nevents := by
  by_cases hk : kret = 0 <;> simp [kqueue_del, hk]

theorem kqueue_del_max_events (c : Consts) (pki : kqueue_internal) (fd : Int) (flags : Nat)
    (kret : Int) :
    (kqueue_del c pki fd flags kret).pki.max_events = pki.max_events := by
  by_cases hk : kret = 0 <;> simp [kqueue_del, hk]

/-! ## The registered-descriptor count over a sequence of calls -/

theorem run_nevents (c : Consts) (calls : List Call) (pki : kqueue_internal) :
    (run c pki calls).nevents =
      pki.nevents + (adds_succeeded c pki calls : Int) - (dels_succeeded c pki calls : Int) := by
  induction calls generalizing pki with
  | nil => simp [run, adds_succeeded, dels_succeeded, history]
  | cons x xs ih =>
    have ih1 := ih (x.exec c pki).pki
    simp only [adds_succeeded, dels_succeeded] at ih1
    simp only [run, adds_succeeded, dels_succeeded, history, List.filter_cons]
    rw [ih1]
    cases x with
    | add fd flags rok kret =>
      simp only [Call.exec, Call.is_add, Bool.true_and, Bool.not_true, Bool.false_and]
      rw [kqueue_add_nevents]
      by_cases h0 : (kqueue_add c pki fd flags rok kret).ret = 0
      · simp [h0]; ring
      · simp [h0]
    | del fd flags kret =>
      simp only [Call.exec, Call.is_add, Bool.true_and, Bool.not_false, Bool.false_and]
      rw [kqueue_del_nevents]
      by_cases h0 : (kqueue_del c pki fd flags kret).ret = 0
      · simp [h0]; ring
      · simp [h0]

/-- Claim C1. On a freshly initialised backend, after any sequence of
`kqueue_add` and `kqueue_del` calls, whatever the native `kevent` and
`realloc` calls answer, `nevents` is the number of adds that returned `0`
minus the number of dels that returned `0`; and a `kqueue_del` returns `-1`
exactly when the OS facility rejects the removal, and then leaves `nevents`
as it was. -/
theorem nevents_eq_adds_minus_dels (c : Consts) (malloc_ok : Bool) (kq : Int)
    (realloc_ok : Bool) (pki0 : kqueue_internal)
    (hinit : (kqueue_init malloc_ok kq realloc_ok).1 = some pki0) (calls : List Call) :
    (run c pki0 calls).nevents =
        (adds_succeeded c pki0 calls : Int) - (dels_succeeded c pki0 calls : Int) ∧
      ∀ (pki : kqueue_internal) (fd : Int) (flags : Nat) (kevent_ret : Int),
        ((kqueue_del c pki fd flags kevent_ret).ret = -1 ↔ kevent_ret ≠ 0) ∧
        ((kqueue_del c pki fd flags kevent_ret).ret = -1 →
          (kqueue_del c pki fd flags kevent_ret).pki.nevents = pki.nevents) := by
  obtain ⟨h0, _⟩ := kqueue_init_some _ _ _ _ hinit
  refine ⟨?_, ?_⟩
  · rw [run_nevents, h0]; simp
  · intro pki fd flags kret
    rw [kqueue_del_nevents, kqueue_del_ret]
    by_cases hk : kret = 0 <;> simp [hk]

/-- Witness for claim C1: the backend initialised on queue descriptor `3`,
one accepted add of descriptor `7`, then a del of descriptor `9` that the OS
facility rejects. -/
theorem nevents_eq_adds_minus_dels_witness :
    (kqueue_init true 3 true).1 = some fresh_pki ∧
    ((run bsd_consts fresh_pki [Call.add 7 1 true 0, Call.del 9 1 (-1)]).nevents =
        (adds_succeeded bsd_consts fresh_pki [Call.add 7 1 true 0, Call.del 9 1 (-1)] : Int) -
          (dels_succeeded bsd_consts fresh_pki [Call.add 7 1 true 0, Call.del 9 1 (-1)] : Int) ∧
      ∀ (pki : kqueue_internal) (fd : Int) (flags : Nat) (kevent_ret : Int),
        ((kqueue_del bsd_consts pki fd flags kevent_ret).ret = -1 ↔ kevent_ret ≠ 0) ∧
        ((kqueue_del bsd_consts pki fd flags kevent_ret).ret = -1 →
          (kqueue_del bsd_consts pki fd flags kevent_ret).pki.nevents = pki.nevents)) :=
  ⟨by decide, nevents_eq_adds_minus_dels bsd_consts true 3 true fresh_pki (by decide)
    [Call.add 7 1 true 0, Call.del 9 1 (-1)]⟩

/-! ## Capacity invariant -/

theorem exec_capacity_inv (c : Consts) (x : Call) (pki : kqueue_internal)
    (h : (∃ k : Nat, pki.max_events = 32 * 2 ^ k) ∧ pki.nevents ≤ pki.max_events) :
    (∃ k : Nat, (x.exec c pki).pki.max_events = 32 * 2 ^ k) ∧
      (x.exec c pki).pki.nevents ≤ (x.exec c pki).pki.max_events := by
  obtain ⟨⟨k, hk⟩, hle⟩ := h
  have hpos : (0 : Int) < pki.max_events := by rw [hk]; positivity
  cases x with
  | add fd flags rok kret =>
    simp only [Call.exec]
    rw [kqueue_add_nevents, kqueue_add_max_events, kqueue_add_ret]
    by_cases hP : (pki.nevents ≥ pki.max_events ∧ rok = false) ∨ kret ≠ 0
    · rw [if_pos hP]
      by_cases hg : pki.nevents ≥ pki.max_events ∧ rok = true
      · rw [if_pos hg]
        refine ⟨⟨k + 1, by rw [hk]; ring⟩, ?_⟩
        norm_num
        omega
      · rw [if_neg hg]
        refine ⟨⟨k, hk⟩, ?_⟩
        norm_num
        exact hle
    · rw [if_neg hP]
      by_cases hg : pki.nevents ≥ pki.max_events ∧ rok = true
      · rw [if_pos hg]
        refine ⟨⟨k + 1, by rw [hk]; ring⟩, ?_⟩
        norm_num
        omega
      · rw [if_neg hg]
        refine ⟨⟨k, hk⟩, ?_⟩
        have hlt : pki.nevents < pki.max_events := by
          by_contra hge
          have hge2 : pki.nevents ≥ pki.max_events := by omega
          cases rok
          · exact hP (Or.inl ⟨hge2, rfl⟩)
          · exact hg ⟨hge2, rfl⟩
        norm_num
        omega
  | del fd flags kret =>
    simp only [Call.exec]
    rw [kqueue_del_nevents, kqueue_del_max_events]
    refine ⟨⟨k, hk⟩, ?_⟩
    split_ifs <;> omega

theorem run_capacity_inv (c : Consts) (calls : List Call) (pki : kqueue_internal)
    (h : (∃ k : Nat, pki.max_events = 32 * 2 ^ k) ∧ pki.nevents ≤ pki.max_events) :
    (∃ k : Nat, (run c pki calls).max_events = 32 * 2 ^ k) ∧
      (run c pki calls).nevents ≤ (run c pki calls).max_events := by
  induction calls generalizing pki with
  | nil => simpa [run] using h
  | cons x xs ih => simpa [run] using ih _ (exec_capacity_inv c x pki h)

theorem init_capacity_inv (m : Bool) (kq : Int) (r : Bool) (pki0 : kqueue_internal)
    (h : (kqueue_init m kq r).1 = some pki0) :
    (∃ k : Nat, pki0.max_events = 32 * 2 ^ k) ∧ pki0.nevents ≤ pki0.max_events := by
  obtain ⟨h0, _⟩ := kqueue_init_some _ _ _ _ h
  subst h0
  exact ⟨⟨0, by simp⟩, by simp⟩

/-- Claim C2. In every state reached from a successful `kqueue_init` by a
sequence of `kqueue_add` and `kqueue_del` calls, whatever the native calls
and `realloc` answer, `max_events` is `32 * 2^k` for some `k` and is at least
`nevents`. -/
theorem capacity_power_of_two_and_bounds_count (c : Consts) (malloc_ok : Bool) (kq : Int)
    (realloc_ok : Bool) (pki0 : kqueue_internal)
    (hinit : (kqueue_init malloc_ok kq realloc_ok).1 = some pki0) (calls : List Call) :
    (∃ k : Nat, (run c pki0 calls).max_events = 32 * 2 ^ k) ∧
      (run c pki0 calls).nevents ≤ (run c pki0 calls).max_events :=
  run_capacity_inv c calls pki0 (init_capacity_inv _ _ _ _ hinit)

/-- Witness for claim C2: the backend initialised on queue descriptor `3`
after an accepted add, a rejected add and an accepted del. -/
theorem capacity_power_of_two_and_bounds_count_witness :
    (kqueue_init true 3 true).1 = some fresh_pki ∧
    ((∃ k : Nat, (run bsd_consts fresh_pki
        [Call.add 7 1 true 0, Call.add 8 2 false (-1), Call.del 7 1 0]).max_events = 32 * 2 ^ k) ∧
      (run bsd_consts fresh_pki
        [Call.add 7 1 true 0, Call.add 8 2 false (-1), Call.del 7 1 0]).nevents ≤
      (run bsd_consts fresh_pki
        [Call.add 7 1 true 0, Call.add 8 2 false (-1), Call.del 7 1 0]).max_events) :=
  ⟨by decide, capacity_power_of_two_and_bounds_count bsd_consts true 3 true fresh_pki (by decide)
    [Call.add 7 1 true 0, Call.add 8 2 false (-1), Call.del 7 1 0]⟩

/-- Claim C3. When `nevents >= max_events` and the `realloc` inside
`kqueue_resize` fails, `kqueue_add` returns `-1`, leaves the backend
(`nevents`, `max_events` and the `events` array) exactly as it was, and
issues no native `kevent` call. -/
theorem add_grow_failure_is_atomic (c : Consts) (pki : kqueue_internal) (fd : Int)
    (flags : Nat) (kevent_ret : Int) (hfull : pki.nevents ≥ pki.max_events) :
    (kqueue_add c pki fd flags false kevent_ret).ret = -1 ∧
      (kqueue_add c pki fd flags false kevent_ret).pki = pki ∧
      (kqueue_add c pki fd flags false kevent_ret).pki.nevents = pki.nevents ∧
      (kqueue_add c pki fd flags false kevent_ret).pki.max_events = pki.max_events ∧
      (kqueue_add c pki fd flags false kevent_ret).pki.events = pki.events ∧
      kevent_changes (kqueue_add c pki fd flags false kevent_ret).trace = [] ∧
      ∀ (kq : Int) (e : kevent),
        Effect.kevent_change kq e ∉ (kqueue_add c pki fd flags false kevent_ret).trace := by
  have hg : pki.max_events ≤ pki.nevents := hfull
  have hres : kqueue_add c pki fd flags false kevent_ret =
      { pki := pki, ret := -1,
        trace := (if flags &&& c.E_EDGE ≠ 0 then [Effect.LOG Diag.edge_unsupported] else []) ++
          [Effect.LOG (Diag.resize_to (pki.max_events * 2)),
           Effect.realloc (pki.max_events * 2), Effect.LOG Diag.realloc_failed,
           Effect.LOG Diag.resize_failed] } := by
    simp [kqueue_add, kqueue_resize, hg]
  rw [hres]
  by_cases he : flags &&& c.E_EDGE = 0 <;> simp [he, kevent_changes]

/-- Witness for claim C3: a full backend (`32` of `32`) and an add of
descriptor `7` during which `realloc` fails. -/
theorem add_grow_failure_is_atomic_witness :
    ({ fresh_pki with nevents := 32 } : kqueue_internal).nevents ≥
      ({ fresh_pki with nevents := 32 } : kqueue_internal).max_events ∧
    (kqueue_add bsd_consts { fresh_pki with nevents := 32 } 7 1 false 0).ret = -1 ∧
    (kqueue_add bsd_consts { fresh_pki with nevents := 32 } 7 1 false 0).pki =
      { fresh_pki with nevents := 32 } :=
  ⟨by decide,
    (add_grow_failure_is_atomic bsd_consts { fresh_pki with nevents := 32 } 7 1 0 (by decide)).1,
    (add_grow_failure_is_atomic bsd_consts { fresh_pki with nevents := 32 } 7 1 0 (by decide)).2.1⟩

/-! ## Growth of the array under consecutive successful adds -/

theorem history_append (c : Consts) (a b : List Call) (pki : kqueue_internal) :
    history c pki (a ++ b) = history c pki a ++ history c (run c pki a) b := by
  induction a generalizing pki with
  | nil => simp [history, run]
  | cons x xs ih => simp [history, run, ih]

theorem run_append (c : Consts) (a b : List Call) (pki : kqueue_internal) :
    run c pki (a ++ b) = run c (run c pki a) b := by
  induction a generalizing pki with
  | nil => simp [run]
  | cons x xs ih => simp [run, ih]

theorem growths_append (c : Consts) (a b : List Call) (pki : kqueue_internal) :
    growths c pki (a ++ b) = growths c pki a + growths c (run c pki a) b := by
  simp [growths, history_append]

/-- A successful `kqueue_add` doubles the capacity when the count had reached
it and keeps it otherwise, and counts the registration. -/
theorem add_success_state (c : Consts) (pki : kqueue_internal) (fd : Int) (flags : Nat)
    (rok : Bool) (kret : Int) (h : (kqueue_add c pki fd flags rok kret).ret = 0) :
    (kqueue_add c pki fd flags rok kret).pki.nevents = pki.nevents + 1 ∧
      (kqueue_add c pki fd flags rok kret).pki.max_events =
        if pki.nevents ≥ pki.max_events then pki.max_events * 2 else pki.max_events := by
  rw [kqueue_add_nevents, if_pos h, kqueue_add_max_events]
  refine ⟨rfl, ?_⟩
  rw [kqueue_add_ret] at h
  by_cases hg : pki.nevents ≥ pki.max_events
  · cases rok
    · simp [hg] at h
    · simp [hg]
  · simp [hg]

theorem add_success_least_capacity (c : Consts) (pki : kqueue_internal) (fd : Int)
    (flags : Nat) (rok : Bool) (kret : Int) (n : Int)
    (h : (kqueue_add c pki fd flags rok kret).ret = 0) (hJ : least_capacity n pki) :
    least_capacity (n + 1) (kqueue_add c pki fd flags rok kret).pki := by
  obtain ⟨hn, k, hk, hle, hmin⟩ := hJ
  obtain ⟨h1, h2⟩ := add_success_state c pki fd flags rok kret h
  have hpos : (0 : Int) < pki.max_events := by rw [hk]; positivity
  refine ⟨by rw [h1, hn], ?_⟩
  by_cases hg : pki.nevents ≥ pki.max_events
  · rw [if_pos hg] at h2
    refine ⟨k + 1, by rw [h2, hk]; ring, by rw [h2]; omega, Or.inr (by rw [h2]; omega)⟩
  · rw [if_neg hg] at h2
    refine ⟨k, by rw [h2, hk], by rw [h2]; omega, ?_⟩
    rcases hmin with h0 | hlt
    · exact Or.inl h0
    · exact Or.inr (by rw [h2]; omega)

theorem run_success_least_capacity (c : Consts) (calls : List Call) (pki : kqueue_internal)
    (n : Int) (hadd : ∀ x ∈ calls, x.is_add = true)
    (hok : ∀ s ∈ history c pki calls, s.result.ret = 0) (hJ : least_capacity n pki) :
    least_capacity (n + calls.length) (run c pki calls) := by
  induction calls generalizing pki n with
  | nil => simpa [run] using hJ
  | cons x xs ih =>
    have hx : x.is_add = true := hadd x (List.mem_cons_self _ _)
    have h0 : (x.exec c pki).ret = 0 :=
      hok { call := x, before := pki, result := x.exec c pki } (by simp [history])
    have hstep : least_capacity (n + 1) (x.exec c pki).pki := by
      cases x with
      | add fd flags rok kret => exact add_success_least_capacity c pki fd flags rok kret n h0 hJ
      | del fd flags kret => simp [Call.is_add] at hx
    have := ih (x.exec c pki).pki (n + 1)
      (fun y hy => hadd y (List.mem_cons_of_mem _ hy))
      (fun s hs => hok s (by simp [history, hs])) hstep
    simp only [run, List.length_cons]
    have e : n + ((xs.length + 1 : Nat) : Int) = n + 1 + (xs.length : Int) := by push_cast; ring
    rw [e]
    exact this

theorem least_capacity_minimal (n : Int) (pki : kqueue_internal) (hJ : least_capacity n pki)
    (j : Nat) (hj : n ≤ 32 * 2 ^ j) : pki.max_events ≤ 32 * 2 ^ j := by
  obtain ⟨_, k, hk, _, hmin⟩ := hJ
  rcases hmin with h0 | hlt
  · subst h0
    rw [hk]
    have : (1 : Int) ≤ 2 ^ j := one_le_pow₀ (by norm_num)
    simp only [pow_zero]
    omega
  · have h1 : (2 : Int) ^ k < 2 ^ (j + 1) := by
      rw [pow_succ]
      rw [hk] at hlt
      omega
    have h2 : k < j + 1 := (pow_lt_pow_iff_right₀ (by norm_num : (1 : Int) < 2)).mp h1
    have h3 : (2 : Int) ^ k ≤ 2 ^ j := pow_le_pow_right₀ (by norm_num) (by omega)
    rw [hk]
    omega

theorem history_success_growth (c : Consts) (calls : List Call) (pki : kqueue_internal)
    (hpos : (∃ k : Nat, pki.max_events = 32 * 2 ^ k) ∧ pki.nevents ≤ pki.max_events)
    (hadd : ∀ x ∈ calls, x.is_add = true)
    (hok : ∀ s ∈ history c pki calls, s.result.ret = 0) :
    ∀ s ∈ history c pki calls,
      (s.result.pki.max_events ≠ s.before.max_events ↔
        s.before.nevents ≥ s.before.max_events) ∧
      (s.result.pki.max_events ≠ s.before.max_events →
        s.result.pki.max_events = 2 * s.before.max_events) := by
  induction calls generalizing pki with
  | nil => intro s hs; simp [history] at hs
  | cons x xs ih =>
    intro s hs
    have hx : x.is_add = true := hadd x (List.mem_cons_self _ _)
    have h0 : (x.exec c pki).ret = 0 :=
      hok { call := x, before := pki, result := x.exec c pki } (by simp [history])
    simp only [history, List.mem_cons] at hs
    rcases hs with hs | hs
    · subst hs
      obtain ⟨⟨k, hk⟩, _⟩ := hpos
      have hp : (0 : Int) < pki.max_events := by rw [hk]; positivity
      cases x with
      | add fd flags rok kret =>
        obtain ⟨_, h2⟩ := add_success_state c pki fd flags rok kret h0
        simp only [Call.exec]
        rw [h2]
        by_cases hg : pki.nevents ≥ pki.max_events
        · simp only [if_pos hg]
          exact ⟨⟨fun _ => hg, fun _ => by omega⟩, fun _ => by ring⟩
        · simp only [if_neg hg]
          exact ⟨⟨fun h => absurd rfl h, fun h => absurd h hg⟩, fun h => absurd rfl h⟩
      | del fd flags kret => simp [Call.is_add] at hx
    · exact ih (x.exec c pki).pki (exec_capacity_inv c x pki hpos)
        (fun y hy => hadd y (List.mem_cons_of_mem _ hy))
        (fun s hs => hok s (by simp [history, hs])) s hs

theorem run_success_no_growth (c : Consts) (calls : List Call) (pki : kqueue_internal)
    (hadd : ∀ x ∈ calls, x.is_add = true)
    (hok : ∀ s ∈ history c pki calls, s.result.ret = 0)
    (hroom : pki.nevents + calls.length ≤ pki.max_events) :
    (run c pki calls).max_events = pki.max_events ∧
      (run c pki calls).nevents = pki.nevents + calls.length ∧
      growths c pki calls = 0 := by
  induction calls generalizing pki with
  | nil => simp [run, growths, history]
  | cons x xs ih =>
    have hx : x.is_add = true := hadd x (List.mem_cons_self _ _)
    have h0 : (x.exec c pki).ret = 0 :=
      hok { call := x, before := pki, result := x.exec c pki } (by simp [history])
    simp only [List.length_cons] at hroom
    push_cast at hroom
    cases x with
    | del fd flags kret => simp [Call.is_add] at hx
    | add fd flags rok kret =>
      obtain ⟨h1, h2⟩ := add_success_state c pki fd flags rok kret h0
      have hg : ¬ (pki.nevents ≥ pki.max_events) := by omega
      rw [if_neg hg] at h2
      have hi := ih (kqueue_add c pki fd flags rok kret).pki
        (fun y hy => hadd y (List.mem_cons_of_mem _ hy))
        (fun s hs => hok s (by simp [history, Call.exec, hs]))
        (by rw [h1, h2]; omega)
      obtain ⟨i1, i2, i3⟩ := hi
      simp only [growths] at i3
      refine ⟨?_, ?_, ?_⟩
      · simp only [run, Call.exec]; rw [i1, h2]
      · simp only [run, Call.exec, List.length_cons]; rw [i2, h1]; push_cast; ring
      · simp only [growths, history, Call.exec, List.filter_cons, h2]
        simpa using i3

theorem growth_on_last_of_33 (c : Consts) (pki : kqueue_internal) (a : List Call) (x : Call)
    (hn : pki.nevents = 0) (hm : pki.max_events = 32) (ha : a.length = 32)
    (hadd : ∀ y ∈ a ++ [x], y.is_add = true)
    (hok : ∀ s ∈ history c pki (a ++ [x]), s.result.ret = 0) :
    (run c pki (a ++ [x])).max_events = 64 ∧ growths c pki (a ++ [x]) = 1 ∧
      growths c pki a = 0 ∧ (run c pki a).max_events = 32 := by
  rw [history_append] at hok
  obtain ⟨a1, a2, a3⟩ := run_success_no_growth c a pki
    (fun y hy => hadd y (List.mem_append_left _ hy))
    (fun s hs => hok s (List.mem_append_left _ hs))
    (by rw [hn, hm, ha]; norm_num)
  have hx : x.is_add = true := hadd x (by simp)
  have h0 : (x.exec c (run c pki a)).ret = 0 :=
    hok { call := x, before := run c pki a, result := x.exec c (run c pki a) }
      (List.mem_append_right _ (by simp [history]))
  rw [run_append, growths_append, a3]
  cases x with
  | del fd flags kret => simp [Call.is_add] at hx
  | add fd flags rok kret =>
    obtain ⟨_, h2⟩ := add_success_state c (run c pki a) fd flags rok kret h0
    have hg : (run c pki a).nevents ≥ (run c pki a).max_events := by
      rw [a1, a2, hn, hm, ha]; norm_num
    rw [if_pos hg, a1, hm] at h2
    refine ⟨?_, ?_, rfl, by rw [a1, hm]⟩
    · simp only [run, Call.exec]; rw [h2]; norm_num
    · simp [growths, history, Call.exec, List.filter_cons, h2, a1, hm]

/-- Claim C4. From a freshly initialised backend, after `n` consecutive
successful `kqueue_add` calls (any `n`, so also every `n >= 1`) the capacity
is the least `32 * 2^k` that is at least `n`; each of these adds changes the capacity if and only if the count had
reached the capacity before it, and then exactly doubles it; and with `33`
adds the capacity ends at `64` after exactly one growth, which is not among
the first `32` adds. -/
theorem lazy_doubling_growth (c : Consts) (malloc_ok : Bool) (kq : Int) (realloc_ok : Bool)
    (pki0 : kqueue_internal)
    (hinit : (kqueue_init malloc_ok kq realloc_ok).1 = some pki0) (calls : List Call)
    (hadd : ∀ x ∈ calls, x.is_add = true)
    (hok : ∀ s ∈ history c pki0 calls, s.result.ret = 0) :
    (∃ k : Nat, (run c pki0 calls).max_events = 32 * 2 ^ k ∧
        (calls.length : Int) ≤ (run c pki0 calls).max_events ∧
        ∀ j : Nat, (calls.length : Int) ≤ 32 * 2 ^ j →
          (run c pki0 calls).max_events ≤ 32 * 2 ^ j) ∧
      (∀ s ∈ history c pki0 calls,
        (s.result.pki.max_events ≠ s.before.max_events ↔
          s.before.nevents ≥ s.before.max_events) ∧
        (s.result.pki.max_events ≠ s.before.max_events →
          s.result.pki.max_events = 2 * s.before.max_events)) ∧
      (calls.length = 33 →
        (run c pki0 calls).max_events = 64 ∧ growths c pki0 calls = 1 ∧
          growths c pki0 (calls.take 32) = 0 ∧
          (run c pki0 (calls.take 32)).max_events = 32) := by
  have hinv := init_capacity_inv _ _ _ _ hinit
  obtain ⟨h0, _⟩ := kqueue_init_some _ _ _ _ hinit
  have hJ0 : least_capacity 0 pki0 := by
    subst h0
    exact ⟨rfl, 0, by simp, by simp, Or.inl rfl⟩
  have hJ := run_success_least_capacity c calls pki0 0 hadd hok hJ0
  rw [zero_add] at hJ
  refine ⟨?_, history_success_growth c calls pki0 hinv hadd hok, ?_⟩
  · have hmin := least_capacity_minimal _ _ hJ
    obtain ⟨_, k, hk, hle, _⟩ := hJ
    exact ⟨k, hk, hle, hmin⟩
  · intro h33
    have hd : (calls.drop 32).length = 1 := by simp [h33]
    obtain ⟨x, hx⟩ := List.length_eq_one.mp hd
    have hsplit : calls.take 32 ++ [x] = calls := by rw [← hx]; exact List.take_append_drop 32 calls
    have ht : (calls.take 32).length = 32 := by simp [h33]
    have key := growth_on_last_of_33 c pki0 (calls.take 32) x (by rw [h0]) (by rw [h0]) ht
      (by rw [hsplit]; exact hadd) (by rw [hsplit]; exact hok)
    rw [hsplit] at key
    exact key

/-- Witness for claim C4: `33` accepted adds of descriptors `0 .. 32` on the
backend initialised on queue descriptor `3`. -/
theorem lazy_doubling_growth_witness :
    (kqueue_init true 3 true).1 = some fresh_pki ∧
    (run bsd_consts fresh_pki
      ((List.range 33).map fun i => Call.add (i : Int) 1 true 0)).max_events = 64 ∧
    growths bsd_consts fresh_pki
      ((List.range 33).map fun i => Call.add (i : Int) 1 true 0) = 1 :=
  ⟨by decide,
    ((lazy_doubling_growth bsd_consts true 3 true fresh_pki (by decide)
      ((List.range 33).map fun i => Call.add (i : Int) 1 true 0)
      (by decide) (by decide)).2.2 (by decide)).1,
    ((lazy_doubling_growth bsd_consts true 3 true fresh_pki (by decide)
      ((List.range 33).map fun i => Call.add (i : Int) 1 true 0)
      (by decide) (by decide)).2.2 (by decide)).2.1⟩

/-! ## The dispatch loop of `kqueue_poll` -/

theorem pending_of_append (a b : List Effect) :
    pending_of (a ++ b) = pending_of a ++ pending_of b := by
  induction a with
  | nil => simp [pending_of]
  | cons x xs ih => cases x <;> simp [pending_of, ih]

theorem mem_pending_of (l : List Effect) (e : event) (f : Nat)
    (h : Effect.reactor_add_to_pending e f ∈ l) : (e, f) ∈ pending_of l := by
  induction l with
  | nil => simp at h
  | cons x xs ih =>
    rcases List.mem_cons.mp h with h | h
    · subst h; simp [pending_of]
    · have := ih h
      cases x <;> simp [pending_of, this]

theorem poll_body_reads (c : Consts) (nd : Bool) (eht : Nat → Option event) (i0 : Nat)
    (ev : kevent) (i : Nat)
    (h : Effect.read_event i ∈ (kqueue_poll_body c nd eht i0 ev).2) : i = i0 := by
  unfold kqueue_poll_body at h
  cases hl : eht ev.ident <;> cases nd <;>
    by_cases h1 : ev.filter = c.EVFILT_READ <;> by_cases h2 : ev.filter = c.EVFILT_WRITE <;>
    by_cases h3 : ev.flags = c.EV_ERROR <;> by_cases h4 : c.E_READ = 0 <;>
    by_cases h5 : c.E_WRITE = 0 <;> simp_all

theorem poll_loop_reads (c : Consts) (nd : Bool) (eht : Nat → Option event)
    (recs : List kevent) (i0 i : Nat)
    (h : Effect.read_event i ∈ (kqueue_poll_loop c nd eht i0 recs).2) :
    i0 ≤ i ∧ i < i0 + recs.length := by
  induction recs generalizing i0 with
  | nil => simp [kqueue_poll_loop] at h
  | cons ev rest ih =>
    simp only [kqueue_poll_loop] at h
    simp only [List.length_cons]
    split_ifs at h with hb
    · have := poll_body_reads c nd eht i0 ev i h
      omega
    · rcases List.mem_append.mp h with h | h
      · have := poll_body_reads c nd eht i0 ev i h
        omega
      · have := ih (i0 + 1) h
        omega

/-- Claim C5. For every backend reached from a successful `kqueue_init` by
`kqueue_add` and `kqueue_del` calls, and every result of the native wait that
respects the limit `nevents` passed to `kevent`, the value `kqueue_poll`
returns is at most `nevents`, and every index at which the dispatch loop
reads `pki->events` is below the number of returned records and below
`max_events`. -/
theorem poll_within_count_and_capacity (c : Consts) (ndebug : Bool)
    (eht : Nat → Option event) (malloc_ok : Bool) (kq : Int) (realloc_ok : Bool)
    (pki0 : kqueue_internal)
    (hinit : (kqueue_init malloc_ok kq realloc_ok).1 = some pki0) (calls : List Call)
    (timeout : Option timeval) (w : WaitOutcome)
    (hw : w.nreadys ≤ (run c pki0 calls).nevents) :
    (∀ v : Int, (kqueue_poll c ndebug eht (run c pki0 calls) timeout w).ret = some v →
        v ≤ (run c pki0 calls).nevents) ∧
      ∀ i : Nat,
        Effect.read_event i ∈ (kqueue_poll c ndebug eht (run c pki0 calls) timeout w).trace →
          (i : Int) < w.nreadys ∧ (i : Int) < (run c pki0 calls).max_events := by
  obtain ⟨_, hle⟩ := run_capacity_inv c calls pki0 (init_capacity_inv _ _ _ _ hinit)
  refine ⟨?_, ?_⟩
  · intro v hv
    simp only [kqueue_poll] at hv
    split_ifs at hv
    simp only [Option.some.injEq] at hv
    omega
  · intro i hi
    simp only [kqueue_poll, List.cons_append, List.nil_append, List.mem_cons] at hi
    rcases hi with hi | hi | hi | hi
    · cases hi
    · cases hi
    · cases hi
    · have h := poll_loop_reads c ndebug eht w.recs 0 i hi
      have hn : (i : Int) < w.nreadys := by
        cases w with
        | failed => simp [WaitOutcome.recs] at h
        | ready recs =>
          simp only [WaitOutcome.recs] at h
          simp only [WaitOutcome.nreadys]
          omega
      exact ⟨hn, by omega⟩

/-- Witness for claim C5: after one accepted add of descriptor `7`, a wait
that reports one read record for it. -/
theorem poll_within_count_and_capacity_witness :
    (kqueue_init true 3 true).1 = some fresh_pki ∧
    (WaitOutcome.ready [EV_SET 7 (-1) 1 0 0 0]).nreadys ≤
      (run bsd_consts fresh_pki [Call.add 7 1 true 0]).nevents ∧
    ((∀ v : Int,
        (kqueue_poll bsd_consts true (fun _ => none)
          (run bsd_consts fresh_pki [Call.add 7 1 true 0]) none
          (WaitOutcome.ready [EV_SET 7 (-1) 1 0 0 0])).ret = some v →
        v ≤ (run bsd_consts fresh_pki [Call.add 7 1 true 0]).nevents) ∧
      ∀ i : Nat,
        Effect.read_event i ∈
          (kqueue_poll bsd_consts true (fun _ => none)
            (run bsd_consts fresh_pki [Call.add 7 1 true 0]) none
            (WaitOutcome.ready [EV_SET 7 (-1) 1 0 0 0])).trace →
          (i : Int) < (WaitOutcome.ready [EV_SET 7 (-1) 1 0 0 0]).nreadys ∧
          (i : Int) < (run bsd_consts fresh_pki [Call.add 7 1 true 0]).max_events) :=
  ⟨by decide, by decide,
    poll_within_count_and_capacity bsd_consts true (fun _ => none) true 3 true fresh_pki
      (by decide) [Call.add 7 1 true 0] none (WaitOutcome.ready [EV_SET 7 (-1) 1 0 0 0])
      (by decide)⟩

theorem poll_body_found (c : Consts) (nd : Bool) (eht : Nat → Option event) (i : Nat)
    (ev : kevent) (hr : c.E_READ ≠ 0) (hw : c.E_WRITE ≠ 0)
    (hf : c.EVFILT_READ ≠ c.EVFILT_WRITE)
    (hmode : nd = true ∨
      ((ev.filter = c.EVFILT_READ ∨ ev.filter = c.EVFILT_WRITE) → eht ev.ident ≠ none)) :
    (kqueue_poll_body c nd eht i ev).1 = true ∧
      pending_of (kqueue_poll_body c nd eht i ev).2 = expected_pending c eht [ev] := by
  unfold kqueue_poll_body expected_pending
  by_cases h1 : ev.filter = c.EVFILT_READ
  · have h2 : ¬ ev.filter = c.EVFILT_WRITE := fun h => hf (h1.symm.trans h)
    cases hl : eht ev.ident <;> cases nd <;> by_cases h3 : ev.flags = c.EV_ERROR <;>
      simp_all [pending_of]
  · by_cases h2 : ev.filter = c.EVFILT_WRITE
    · cases hl : eht ev.ident <;> cases nd <;> by_cases h3 : ev.flags = c.EV_ERROR <;>
        simp_all [pending_of]
    · cases hl : eht ev.ident <;> cases nd <;> by_cases h3 : ev.flags = c.EV_ERROR <;>
        simp_all [pending_of]

theorem expected_pending_cons (c : Consts) (eht : Nat → Option event) (ev : kevent)
    (rest : List kevent) :
    expected_pending c eht (ev :: rest) =
      expected_pending c eht [ev] ++ expected_pending c eht rest := by
  unfold expected_pending
  rw [← List.filterMap_append]
  rfl

theorem poll_loop_found (c : Consts) (nd : Bool) (eht : Nat → Option event)
    (recs : List kevent) (i : Nat) (hr : c.E_READ ≠ 0) (hw : c.E_WRITE ≠ 0)
    (hf : c.EVFILT_READ ≠ c.EVFILT_WRITE)
    (hmode : nd = true ∨ ∀ ev ∈ recs,
      (ev.filter = c.EVFILT_READ ∨ ev.filter = c.EVFILT_WRITE) → eht ev.ident ≠ none) :
    (kqueue_poll_loop c nd eht i recs).1 = true ∧
      pending_of (kqueue_poll_loop c nd eht i recs).2 = expected_pending c eht recs := by
  induction recs generalizing i with
  | nil => simp [kqueue_poll_loop, pending_of, expected_pending]
  | cons ev rest ih =>
    obtain ⟨b1, b2⟩ := poll_body_found c nd eht i ev hr hw hf
      (hmode.imp id fun h => h ev (List.mem_cons_self _ _))
    obtain ⟨r1, r2⟩ := ih (i + 1)
      (hmode.imp id fun h ev2 h2 => h ev2 (List.mem_cons_of_mem _ h2))
    simp only [kqueue_poll_loop, b1, Bool.true_eq_false, if_false]
    rw [pending_of_append, b2, r2, expected_pending_cons c eht ev rest]
    exact ⟨r1, rfl⟩

theorem poll_loop_assert_fails (c : Consts) (eht : Nat → Option event)
    (recs : List kevent) (i : Nat) (hr : c.E_READ ≠ 0) (hw : c.E_WRITE ≠ 0)
    (hmiss : ∃ ev ∈ recs,
      (ev.filter = c.EVFILT_READ ∨ ev.filter = c.EVFILT_WRITE) ∧ eht ev.ident = none) :
    (kqueue_poll_loop c false eht i recs).1 = false := by
  induction recs generalizing i with
  | nil => simp at hmiss
  | cons ev rest ih =>
    simp only [kqueue_poll_loop]
    by_cases hb : (kqueue_poll_body c false eht i ev).1 = false
    · simp [hb]
    · simp only [hb, if_false]
      obtain ⟨ev2, hmem, hfil, hnone⟩ := hmiss
      rcases List.mem_cons.mp hmem with h | h
      · subst h
        exfalso
        apply hb
        unfold kqueue_poll_body
        rcases hfil with h1 | h2
        · by_cases h2 : ev2.filter = c.EVFILT_WRITE
          · have h3 : c.EVFILT_READ = c.EVFILT_WRITE := h1.symm.trans h2
            simp [h1, h3, hnone, hw]
          · have h3 : ¬ c.EVFILT_READ = c.EVFILT_WRITE := fun h => h2 (h1.trans h)
            simp [h1, h3, hnone, hr]
        · simp [h2, hnone, hw]
      · exact ih (i + 1) ⟨ev2, h, hfil, hnone⟩

theorem poll_body_assert_fails (c : Consts) (eht : Nat → Option event) (i : Nat)
    (ev : kevent) (hr : c.E_READ ≠ 0) (hw : c.E_WRITE ≠ 0)
    (hfil : ev.filter = c.EVFILT_READ ∨ ev.filter = c.EVFILT_WRITE)
    (hnone : eht ev.ident = none) :
    (kqueue_poll_body c false eht i ev).1 = false ∧
      pending_of (kqueue_poll_body c false eht i ev).2 = [] := by
  unfold kqueue_poll_body
  rcases hfil with h1 | h2
  · by_cases h2 : ev.filter = c.EVFILT_WRITE
    · have h3 : c.EVFILT_READ = c.EVFILT_WRITE := h1.symm.trans h2
      by_cases h4 : ev.flags = c.EV_ERROR <;> simp [h1, h3, h4, hnone, hw, pending_of]
    · have h3 : ¬ c.EVFILT_READ = c.EVFILT_WRITE := fun h => h2 (h1.trans h)
      by_cases h4 : ev.flags = c.EV_ERROR <;> simp [h1, h3, h4, hnone, hr, pending_of]
  · by_cases h4 : ev.flags = c.EV_ERROR <;> simp [h2, h4, hnone, hw, pending_of]

/-- The loop ends at the first record whose body ends in the failed
assertion: its trace is the trace of the records before it followed by the
trace of that one body, whatever records come later. -/
theorem poll_loop_stops (c : Consts) (nd : Bool) (eht : Nat → Option event)
    (pre : List kevent) (ev : kevent) (post : List kevent) (i : Nat)
    (hpre : (kqueue_poll_loop c nd eht i pre).1 = true)
    (hev : (kqueue_poll_body c nd eht (i + pre.length) ev).1 = false) :
    kqueue_poll_loop c nd eht i (pre ++ ev :: post) =
      (false, (kqueue_poll_loop c nd eht i pre).2 ++
        (kqueue_poll_body c nd eht (i + pre.length) ev).2) := by
  induction pre generalizing i with
  | nil =>
    simp only [List.length_nil, Nat.add_zero] at hev
    simp [kqueue_poll_loop, hev]
  | cons x xs ih =>
    have hb : (kqueue_poll_body c nd eht i x).1 = true := by
      cases h : (kqueue_poll_body c nd eht i x).1
      · simp [kqueue_poll_loop, h] at hpre
      · rfl
    have hxs : (kqueue_poll_loop c nd eht (i + 1) xs).1 = true := by
      simpa [kqueue_poll_loop, hb] using hpre
    have e : i + (x :: xs).length = i + 1 + xs.length := by
      simp only [List.length_cons]; omega
    rw [e] at hev
    have hi := ih (i + 1) hxs hev
    rw [e, List.cons_append]
    simp [kqueue_poll_loop, hb, hi]

/-- Claim C6, as amended. When the file is compiled with `NDEBUG`, or when
the descriptor of every record with the read or the write filter is in the
lookup table, `kqueue_poll` returns the number `n` of records the wait
reported and hands to `reactor_add_to_pending`, in record order, exactly one
entry for each record with the read filter (direction `E_READ`) or the write
filter (direction `E_WRITE`) whose descriptor is in the table; a record whose
descriptor is missing is then skipped, the later records are still processed
and the returned count includes it. Compiled without `NDEBUG`, a record with
the read or the write filter whose descriptor is missing makes
`assert(e != NULL)` fail and `kqueue_poll` does not return; the records after
the first such record are not processed: the pending entries are exactly
those of the records before it, no record after it is read, and the whole
trace is the one obtained when the wait reports no record after it. -/
theorem poll_enqueues_found_records (c : Consts) (ndebug : Bool) (eht : Nat → Option event)
    (pki : kqueue_internal) (timeout : Option timeval) (recs : List kevent)
    (hr : c.E_READ ≠ 0) (hw : c.E_WRITE ≠ 0) (hf : c.EVFILT_READ ≠ c.EVFILT_WRITE) :
    ((ndebug = true ∨ ∀ ev ∈ recs,
        (ev.filter = c.EVFILT_READ ∨ ev.filter = c.EVFILT_WRITE) → eht ev.ident ≠ none) →
      (kqueue_poll c ndebug eht pki timeout (WaitOutcome.ready recs)).ret =
          some (recs.length : Int) ∧
        pending_of (kqueue_poll c ndebug eht pki timeout (WaitOutcome.ready recs)).trace =
          expected_pending c eht recs) ∧
    ((ndebug = false ∧ ∃ ev ∈ recs,
        (ev.filter = c.EVFILT_READ ∨ ev.filter = c.EVFILT_WRITE) ∧ eht ev.ident = none) →
      (kqueue_poll c ndebug eht pki timeout (WaitOutcome.ready recs)).ret = none) ∧
    (∀ (pre : List kevent) (ev : kevent) (post : List kevent),
      ndebug = false → recs = pre ++ ev :: post →
      (∀ p ∈ pre,
        (p.filter = c.EVFILT_READ ∨ p.filter = c.EVFILT_WRITE) → eht p.ident ≠ none) →
      (ev.filter = c.EVFILT_READ ∨ ev.filter = c.EVFILT_WRITE) → eht ev.ident = none →
      (kqueue_poll c ndebug eht pki timeout (WaitOutcome.ready recs)).ret = none ∧
        pending_of (kqueue_poll c ndebug eht pki timeout (WaitOutcome.ready recs)).trace =
          expected_pending c eht pre ∧
        (∀ i : Nat,
          Effect.read_event i ∈
            (kqueue_poll c ndebug eht pki timeout (WaitOutcome.ready recs)).trace →
          i ≤ pre.length) ∧
        (∀ (e : event) (f : Nat),
          Effect.reactor_add_to_pending e f ∈
            (kqueue_poll c ndebug eht pki timeout (WaitOutcome.ready recs)).trace →
          (e, f) ∈ expected_pending c eht pre) ∧
        (kqueue_poll c ndebug eht pki timeout (WaitOutcome.ready recs)).trace =
          (kqueue_poll c ndebug eht pki timeout (WaitOutcome.ready (pre ++ [ev]))).trace) := by
  refine ⟨?_, ?_, ?_⟩
  · intro hmode
    obtain ⟨l1, l2⟩ := poll_loop_found c ndebug eht recs 0 hr hw hf hmode
    simp only [kqueue_poll, WaitOutcome.recs, WaitOutcome.nreadys, l1]
    refine ⟨by simp, ?_⟩
    rw [pending_of_append, l2]
    simp [pending_of]
  · rintro ⟨hnd, hmiss⟩
    subst hnd
    have l1 := poll_loop_assert_fails c eht recs 0 hr hw hmiss
    simp [kqueue_poll, WaitOutcome.recs, l1]
  · intro pre ev post hnd hrecs hpre hfil hnone
    subst hnd
    subst hrecs
    obtain ⟨p1, p2⟩ := poll_loop_found c false eht pre 0 hr hw hf (Or.inr hpre)
    obtain ⟨b1, b2⟩ := poll_body_assert_fails c eht (0 + pre.length) ev hr hw hfil hnone
    have hstop := poll_loop_stops c false eht pre ev post 0 p1 b1
    have hstop2 := poll_loop_stops c false eht pre ev [] 0 p1 b1
    have hpend : pending_of (kqueue_poll c false eht pki timeout
        (WaitOutcome.ready (pre ++ ev :: post))).trace = expected_pending c eht pre := by
      simp only [kqueue_poll, WaitOutcome.recs, hstop]
      rw [pending_of_append, pending_of_append, p2, b2]
      simp [pending_of]
    refine ⟨?_, hpend, ?_, ?_, ?_⟩
    · simp [kqueue_poll, WaitOutcome.recs, hstop]
    · intro i hi
      simp only [kqueue_poll, WaitOutcome.recs, hstop, List.cons_append, List.nil_append,
        List.mem_cons, List.mem_append] at hi
      rcases hi with hi | hi | hi | hi | hi
      · cases hi
      · cases hi
      · cases hi
      · have := poll_loop_reads c false eht pre 0 i hi
        omega
      · have := poll_body_reads c false eht (0 + pre.length) ev i hi
        omega
    · intro e f hmem
      rw [← hpend]
      exact mem_pending_of _ e f hmem
    · simp only [kqueue_poll, WaitOutcome.recs, hstop, hstop2]

/-- Witness for claim C6, on a backend with two accepted registrations: one
read record for descriptor `7`, which is in the table, gives the return value
`1` and the single pending entry for descriptor `7` with direction `E_READ`;
with `NDEBUG`, a read record for the unknown descriptor `9` before it is
skipped and counted; without `NDEBUG` the same two records end in the failed
assertion, nothing is enqueued and the record for descriptor `7` is never
read. -/
theorem poll_enqueues_found_records_witness :
    ((kqueue_poll bsd_consts false table_fd7 registered_pki none
        (WaitOutcome.ready [EV_SET 7 (-1) 1 0 0 0])).ret = some 1 ∧
      pending_of (kqueue_poll bsd_consts false table_fd7 registered_pki none
        (WaitOutcome.ready [EV_SET 7 (-1) 1 0 0 0])).trace =
        [({ fd := 7, ev_flags := 1, callback := 0 }, 1)]) ∧
    ((kqueue_poll bsd_consts true table_fd7 registered_pki none
        (WaitOutcome.ready [EV_SET 9 (-1) 1 0 0 0, EV_SET 7 (-1) 1 0 0 0])).ret = some 2 ∧
      pending_of (kqueue_poll bsd_consts true table_fd7 registered_pki none
        (WaitOutcome.ready [EV_SET 9 (-1) 1 0 0 0, EV_SET 7 (-1) 1 0 0 0])).trace =
        [({ fd := 7, ev_flags := 1, callback := 0 }, 1)]) ∧
    (kqueue_poll bsd_consts false table_fd7 registered_pki none
      (WaitOutcome.ready [EV_SET 9 (-1) 1 0 0 0, EV_SET 7 (-1) 1 0 0 0])).ret = none ∧
    (pending_of (kqueue_poll bsd_consts false table_fd7 registered_pki none
        (WaitOutcome.ready [EV_SET 9 (-1) 1 0 0 0, EV_SET 7 (-1) 1 0 0 0])).trace = [] ∧
      ∀ i : Nat,
        Effect.read_event i ∈ (kqueue_poll bsd_consts false table_fd7 registered_pki none
          (WaitOutcome.ready [EV_SET 9 (-1) 1 0 0 0, EV_SET 7 (-1) 1 0 0 0])).trace →
        i ≤ 0) :=
  ⟨(poll_enqueues_found_records bsd_consts false table_fd7 registered_pki none
      [EV_SET 7 (-1) 1 0 0 0] (by decide) (by decide) (by decide)).1 (Or.inr (by decide)),
    (poll_enqueues_found_records bsd_consts true table_fd7 registered_pki none
      [EV_SET 9 (-1) 1 0 0 0, EV_SET 7 (-1) 1 0 0 0] (by decide) (by decide) (by decide)).1
      (Or.inl rfl),
    (poll_enqueues_found_records bsd_consts false table_fd7 registered_pki none
      [EV_SET 9 (-1) 1 0 0 0, EV_SET 7 (-1) 1 0 0 0] (by decide) (by decide) (by decide)).2.1
      ⟨rfl, EV_SET 9 (-1) 1 0 0 0, by decide, by decide, by decide⟩,
    ((poll_enqueues_found_records bsd_consts false table_fd7 registered_pki none
      [EV_SET 9 (-1) 1 0 0 0, EV_SET 7 (-1) 1 0 0 0] (by decide) (by decide) (by decide)).2.2
      [] (EV_SET 9 (-1) 1 0 0 0) [EV_SET 7 (-1) 1 0 0 0] rfl rfl (by decide) (by decide)
      (by decide)).2.1,
    ((poll_enqueues_found_records bsd_consts false table_fd7 registered_pki none
      [EV_SET 9 (-1) 1 0 0 0, EV_SET 7 (-1) 1 0 0 0] (by decide) (by decide) (by decide)).2.2
      [] (EV_SET 9 (-1) 1 0 0 0) [EV_SET 7 (-1) 1 0 0 0] rfl rfl (by decide) (by decide)
      (by decide)).2.2.1⟩

/-- Counterexample to claim C6 as stated. The backend holds two accepted
registrations (descriptors `9` and `7`), so the wait, called with the limit
`nevents = 2`, may report two records. Compiled without `NDEBUG`, with the
wait reporting a read record for descriptor `9`, which is not in the table,
and then one for descriptor `7`, which is, `kqueue_poll` does not return `2`
and does not enqueue the entry for descriptor `7`: the assertion
`assert(e != NULL)` fails at the first record. -/
theorem poll_lookup_miss_counterexample :
    registered_pki.nevents = 2 ∧
    (WaitOutcome.ready [EV_SET 9 (-1) 1 0 0 0, EV_SET 7 (-1) 1 0 0 0]).nreadys ≤
      registered_pki.nevents ∧
    (kqueue_poll bsd_consts false table_fd7 registered_pki none
      (WaitOutcome.ready [EV_SET 9 (-1) 1 0 0 0, EV_SET 7 (-1) 1 0 0 0])).trace =
      [Effect.el_lock_unlock, Effect.kevent_wait 3 2 none, Effect.el_lock_lock,
        Effect.read_event 0, Effect.event_ht_retrieve 9] ∧
    (kqueue_poll bsd_consts false table_fd7 registered_pki none
      (WaitOutcome.ready [EV_SET 9 (-1) 1 0 0 0, EV_SET 7 (-1) 1 0 0 0])).ret = none ∧
    pending_of (kqueue_poll bsd_consts false table_fd7 registered_pki none
      (WaitOutcome.ready [EV_SET 9 (-1) 1 0 0 0, EV_SET 7 (-1) 1 0 0 0])).trace = [] ∧
    expected_pending bsd_consts table_fd7 [EV_SET 9 (-1) 1 0 0 0, EV_SET 7 (-1) 1 0 0 0] =
      [({ fd := 7, ev_flags := 1, callback := 0 }, 1)] ∧
    ¬ ((kqueue_poll bsd_consts false table_fd7 registered_pki none
        (WaitOutcome.ready [EV_SET 9 (-1) 1 0 0 0, EV_SET 7 (-1) 1 0 0 0])).ret = some 2 ∧
      pending_of (kqueue_poll bsd_consts false table_fd7 registered_pki none
        (WaitOutcome.ready [EV_SET 9 (-1) 1 0 0 0, EV_SET 7 (-1) 1 0 0 0])).trace =
        expected_pending bsd_consts table_fd7
          [EV_SET 9 (-1) 1 0 0 0, EV_SET 7 (-1) 1 0 0 0]) := by
  decide

/-! ## Lock discipline of `kqueue_poll` -/

theorem poll_body_no_lock_effect (c : Consts) (nd : Bool) (eht : Nat → Option event)
    (i : Nat) (ev : kevent) :
    ∀ e ∈ (kqueue_poll_body c nd eht i ev).2,
      e ≠ Effect.el_lock_unlock ∧ e ≠ Effect.el_lock_lock ∧
        ∀ (kq n : Int) (t : Option timespec), e ≠ Effect.kevent_wait kq n t := by
  unfold kqueue_poll_body
  cases hl : eht ev.ident <;> cases nd <;>
    by_cases h1 : ev.filter = c.EVFILT_READ <;> by_cases h2 : ev.filter = c.EVFILT_WRITE <;>
    by_cases h3 : ev.flags = c.EV_ERROR <;> by_cases h4 : c.E_READ = 0 <;>
    by_cases h5 : c.E_WRITE = 0 <;> simp_all

theorem poll_loop_no_lock_effect (c : Consts) (nd : Bool) (eht : Nat → Option event)
    (recs : List kevent) (i : Nat) :
    ∀ e ∈ (kqueue_poll_loop c nd eht i recs).2,
      e ≠ Effect.el_lock_unlock ∧ e ≠ Effect.el_lock_lock ∧
        ∀ (kq n : Int) (t : Option timespec), e ≠ Effect.kevent_wait kq n t := by
  induction recs generalizing i with
  | nil => intro e he; simp [kqueue_poll_loop] at he
  | cons ev rest ih =>
    intro e he
    simp only [kqueue_poll_loop] at he
    split_ifs at he with hb
    · exact poll_body_no_lock_effect c nd eht i ev e he
    · rcases List.mem_append.mp he with h | h
      · exact poll_body_no_lock_effect c nd eht i ev e h
      · exact ih (i + 1) e h

theorem lock_held_of_no_lock_effect (held : Bool) (l : List Effect)
    (h : ∀ e ∈ l, e ≠ Effect.el_lock_unlock ∧ e ≠ Effect.el_lock_lock) :
    lock_held held l = held := by
  induction l with
  | nil => rfl
  | cons x xs ih =>
    have hx := h x (List.mem_cons_self _ _)
    have hxs := ih fun e he => h e (List.mem_cons_of_mem _ he)
    cases x <;> simp_all [lock_held]

theorem shared_access_locked_of_no_lock_effect (l : List Effect)
    (h : ∀ e ∈ l, e ≠ Effect.el_lock_unlock ∧ e ≠ Effect.el_lock_lock) :
    shared_access_locked true l = true := by
  induction l with
  | nil => rfl
  | cons x xs ih =>
    have hx := h x (List.mem_cons_self _ _)
    have hxs := ih fun e he => h e (List.mem_cons_of_mem _ he)
    cases x <;> simp_all [shared_access_locked]

/-- Claim C8. The trace of every execution of `kqueue_poll` starts with the
release of the reactor lock, then the native wait, then the reacquisition of
the lock, and everything else (all lookups and all pending-list enqueues)
comes after; the lock is released once and reacquired once; no lookup-table
read and no enqueue happens while the lock is released; and the lock is held
at the end, also when the wait fails, in which case `-1` is returned. -/
theorem poll_lock_discipline (c : Consts) (ndebug : Bool) (eht : Nat → Option event)
    (pki : kqueue_internal) (timeout : Option timeval) (w : WaitOutcome) :
    (∃ (t : Option timespec) (rest : List Effect),
        (kqueue_poll c ndebug eht pki timeout w).trace =
          Effect.el_lock_unlock :: Effect.kevent_wait pki.kqueue_fd pki.nevents t ::
            Effect.el_lock_lock :: rest ∧
        (∀ e ∈ rest, e ≠ Effect.el_lock_unlock ∧ e ≠ Effect.el_lock_lock ∧
          ∀ (kq n : Int) (t2 : Option timespec), e ≠ Effect.kevent_wait kq n t2) ∧
        pending_of (kqueue_poll c ndebug eht pki timeout w).trace = pending_of rest) ∧
      (kqueue_poll c ndebug eht pki timeout w).trace.count Effect.el_lock_unlock = 1 ∧
      (kqueue_poll c ndebug eht pki timeout w).trace.count Effect.el_lock_lock = 1 ∧
      shared_access_locked true (kqueue_poll c ndebug eht pki timeout w).trace = true ∧
      lock_held true (kqueue_poll c ndebug eht pki timeout w).trace = true ∧
      (kqueue_poll c ndebug eht pki timeout WaitOutcome.failed).ret = some (-1) ∧
      lock_held true (kqueue_poll c ndebug eht pki timeout WaitOutcome.failed).trace = true := by
  have hno := poll_loop_no_lock_effect c ndebug eht w.recs 0
  have hno2 : ∀ e ∈ (kqueue_poll_loop c ndebug eht 0 w.recs).2,
      e ≠ Effect.el_lock_unlock ∧ e ≠ Effect.el_lock_lock := fun e he =>
    ⟨(hno e he).1, (hno e he).2.1⟩
  have hu : Effect.el_lock_unlock ∉ (kqueue_poll_loop c ndebug eht 0 w.recs).2 :=
    fun h => (hno _ h).1 rfl
  have hl : Effect.el_lock_lock ∉ (kqueue_poll_loop c ndebug eht 0 w.recs).2 :=
    fun h => (hno _ h).2.1 rfl
  refine ⟨⟨_, (kqueue_poll_loop c ndebug eht 0 w.recs).2, rfl, hno, ?_⟩, ?_, ?_, ?_, ?_, ?_, ?_⟩
  · simp [kqueue_poll, pending_of]
  · simp [kqueue_poll, List.count_cons, List.count_eq_zero.mpr hu]
  · simp [kqueue_poll, List.count_cons, List.count_eq_zero.mpr hl]
  · simp only [kqueue_poll, List.cons_append, List.nil_append, shared_access_locked]
    exact shared_access_locked_of_no_lock_effect _ hno2
  · simp only [kqueue_poll, List.cons_append, List.nil_append, lock_held]
    exact lock_held_of_no_lock_effect true _ hno2
  · simp [kqueue_poll, WaitOutcome.recs, WaitOutcome.nreadys, kqueue_poll_loop]
  · simp [kqueue_poll, WaitOutcome.recs, kqueue_poll_loop, lock_held]

/-! ## Flag translation -/

theorem or_edge_and (flags e r : Nat) (h : e &&& r = 0) : (flags ||| e) &&& r = flags &&& r := by
  rw [Nat.and_distrib_right, h, Nat.or_zero]

theorem or_edge_and_self (flags e : Nat) (h : flags &&& e = 0) : (flags ||| e) &&& e = e := by
  rw [Nat.and_distrib_right, h, Nat.and_self, Nat.zero_or]

theorem kevent_changes_append (a b : List Effect) :
    kevent_changes (a ++ b) = kevent_changes a ++ kevent_changes b := by
  induction a with
  | nil => simp [kevent_changes]
  | cons x xs ih => cases x <;> simp [kevent_changes, ih]

/-- The native calls of `kqueue_add`: none when growing the array fails, and
otherwise the single record built with `EV_SET`. -/
theorem kqueue_add_changes (c : Consts) (pki : kqueue_internal) (fd : Int) (flags : Nat)
    (rok : Bool) (kret : Int) :
    kevent_changes (kqueue_add c pki fd flags rok kret).trace =
      if pki.nevents ≥ pki.max_events ∧ rok = false then []
      else [EV_SET (ident_of c fd) (kqueue_setup_filter c flags) c.EV_ADD
        (if flags &&& c.E_ONCE ≠ 0 then c.EV_ONESHOT else 0) 0 0] := by
  by_cases hk : kret = 0 <;> by_cases hg : pki.max_events ≤ pki.nevents <;> cases rok <;>
    by_cases he : flags &&& c.E_EDGE = 0 <;>
    simp [kqueue_add, kqueue_resize, hk, hg, he, kevent_changes]

/-- The native call of `kqueue_del`: the single record built with `EV_SET`. -/
theorem kqueue_del_changes (c : Consts) (pki : kqueue_internal) (fd : Int) (flags : Nat)
    (kret : Int) :
    kevent_changes (kqueue_del c pki fd flags kret).trace =
      [EV_SET (ident_of c fd) (kqueue_setup_filter c flags) c.EV_DELETE 0 0 0] := by
  by_cases hk : kret = 0 <;> simp [kqueue_del, hk, kevent_changes]

/-- With `E_READ` set and `E_WRITE` clear the filter is the read filter. -/
theorem setup_filter_read_only (c : Consts) (flags : Nat) (hR : flags &&& c.E_READ ≠ 0)
    (hW : flags &&& c.E_WRITE = 0) : kqueue_setup_filter c flags = c.EVFILT_READ := by
  simp [kqueue_setup_filter, hR, hW]

/-- With `E_WRITE` set the filter is the write filter. -/
theorem setup_filter_write (c : Consts) (flags : Nat) (hW : flags &&& c.E_WRITE ≠ 0) :
    kqueue_setup_filter c flags = c.EVFILT_WRITE := by
  simp [kqueue_setup_filter, hW]

/-- Claim C7. When `E_EDGE` shares no bit with `E_READ`, `E_WRITE` and
`E_ONCE`, `kqueue_add` with `E_EDGE` set behaves, for the same answers of the
native calls, as with `E_EDGE` cleared: same return value, same resulting
backend (count, capacity, array), same native subscription; its trace is the
trace without `E_EDGE` preceded by one diagnostic. So asking for
edge-triggering never makes an add fail. -/
theorem edge_flag_only_adds_diagnostic (c : Consts) (pki : kqueue_internal) (fd : Int)
    (flags : Nat) (realloc_ok : Bool) (kevent_ret : Int)
    (hne : c.E_EDGE ≠ 0) (hR : c.E_EDGE &&& c.E_READ = 0) (hW : c.E_EDGE &&& c.E_WRITE = 0)
    (hO : c.E_EDGE &&& c.E_ONCE = 0) (hclear : flags &&& c.E_EDGE = 0) :
    (kqueue_add c pki fd (flags ||| c.E_EDGE) realloc_ok kevent_ret).ret =
        (kqueue_add c pki fd flags realloc_ok kevent_ret).ret ∧
      (kqueue_add c pki fd (flags ||| c.E_EDGE) realloc_ok kevent_ret).pki =
        (kqueue_add c pki fd flags realloc_ok kevent_ret).pki ∧
      kevent_changes (kqueue_add c pki fd (flags ||| c.E_EDGE) realloc_ok kevent_ret).trace =
        kevent_changes (kqueue_add c pki fd flags realloc_ok kevent_ret).trace ∧
      (kqueue_add c pki fd (flags ||| c.E_EDGE) realloc_ok kevent_ret).trace =
        Effect.LOG Diag.edge_unsupported ::
          (kqueue_add c pki fd flags realloc_ok kevent_ret).trace ∧
      ((kqueue_add c pki fd flags realloc_ok kevent_ret).ret = 0 →
        (kqueue_add c pki fd (flags ||| c.E_EDGE) realloc_ok kevent_ret).ret = 0) := by
  have e1 := or_edge_and flags c.E_EDGE c.E_READ hR
  have e2 := or_edge_and flags c.E_EDGE c.E_WRITE hW
  have e3 := or_edge_and flags c.E_EDGE c.E_ONCE hO
  have e4 := or_edge_and_self flags c.E_EDGE hclear
  have hret : (kqueue_add c pki fd (flags ||| c.E_EDGE) realloc_ok kevent_ret).ret =
      (kqueue_add c pki fd flags realloc_ok kevent_ret).ret := by
    rw [kqueue_add_ret, kqueue_add_ret]
  have hfil : kqueue_setup_filter c (flags ||| c.E_EDGE) = kqueue_setup_filter c flags := by
    simp only [kqueue_setup_filter, e1, e2]
  refine ⟨hret, ?_, ?_, ?_, fun h => hret.trans h⟩
  · by_cases hk : kevent_ret = 0 <;> by_cases hg : pki.max_events ≤ pki.nevents <;>
      cases realloc_ok <;> simp [kqueue_add, kqueue_resize, hk, hg]
  · rw [kqueue_add_changes, kqueue_add_changes, hfil, e3]
  · by_cases hk : kevent_ret = 0 <;> by_cases hg : pki.max_events ≤ pki.nevents <;>
      cases realloc_ok <;>
      simp [kqueue_add, kqueue_resize, hk, hg, e3, e4, hne, hclear, hfil]

/-- Witness for claim C7: an add of descriptor `7` for reading, with and
without the edge-triggered bit. -/
theorem edge_flag_only_adds_diagnostic_witness :
    (kqueue_add bsd_consts fresh_pki 7 (0x01 ||| bsd_consts.E_EDGE) true 0).ret =
        (kqueue_add bsd_consts fresh_pki 7 0x01 true 0).ret ∧
      (kqueue_add bsd_consts fresh_pki 7 (0x01 ||| bsd_consts.E_EDGE) true 0).trace =
        Effect.LOG Diag.edge_unsupported ::
          (kqueue_add bsd_consts fresh_pki 7 0x01 true 0).trace :=
  ⟨(edge_flag_only_adds_diagnostic bsd_consts fresh_pki 7 0x01 true 0
      (by decide) (by decide) (by decide) (by decide) (by decide)).1,
    (edge_flag_only_adds_diagnostic bsd_consts fresh_pki 7 0x01 true 0
      (by decide) (by decide) (by decide) (by decide) (by decide)).2.2.2.1⟩

/-- Claim C9, evaluated on the code. The record `kqueue_add` submits has
`EV_ADD` alone in its `flags` field, whatever the interest flags are, and
the value `EV_ONESHOT` chosen for `E_ONCE` lands in the `fflags` field (the
fifth argument of `EV_SET`). For `kqueue_add(r, 7, E_READ | E_ONCE)` on a
fresh backend the submitted record has the read filter, `flags = EV_ADD`
without the `EV_ONESHOT` bit, and `fflags = EV_ONESHOT`. -/
theorem add_oneshot_lands_in_fflags (c : Consts) (pki : kqueue_internal) (fd : Int)
    (flags : Nat) (realloc_ok : Bool) (kevent_ret : Int) :
    kevent_changes (kqueue_add c pki fd flags realloc_ok kevent_ret).trace =
        (if pki.nevents ≥ pki.max_events ∧ realloc_ok = false then []
         else [{ ident := ident_of c fd, filter := kqueue_setup_filter c flags,
                 flags := c.EV_ADD,
                 fflags := if flags &&& c.E_ONCE ≠ 0 then c.EV_ONESHOT else 0,
                 data := 0, udata := 0 }]) ∧
      kevent_changes (kqueue_add bsd_consts fresh_pki 7 0x21 true 0).trace =
        [{ ident := 7, filter := -1, flags := 0x0001, fflags := 0x0010, data := 0,
           udata := 0 }] ∧
      (0x0001 : Nat) &&& bsd_consts.EV_ONESHOT = 0 := by
  refine ⟨?_, by decide, by decide⟩
  rw [kqueue_add_changes]
  rfl

/-- Claim C10. `kqueue_setup_filter` keeps one filter only: with both
`E_READ` and `E_WRITE` set it returns the write filter, not the read filter,
and `kqueue_add` submits exactly one subscription, for write; with neither
bit set it returns `0`, which is neither the read nor the write filter, and
`kqueue_add` and `kqueue_del` still submit the native call with filter `0`,
and when the OS accepts it the registration is counted (the removal is
discounted). For `kqueue_add` this is when growing the array does not fail. -/
theorem setup_filter_single_direction (c : Consts) (pki : kqueue_internal) (fd : Int)
    (both neither : Nat) (realloc_ok : Bool) (kevent_ret : Int)
    (_hbR : both &&& c.E_READ ≠ 0) (hbW : both &&& c.E_WRITE ≠ 0)
    (hnR : neither &&& c.E_READ = 0) (hnW : neither &&& c.E_WRITE = 0)
    (hfr : c.EVFILT_READ ≠ 0) (hfw : c.EVFILT_WRITE ≠ 0)
    (hne : c.EVFILT_READ ≠ c.EVFILT_WRITE)
    (hgrow : ¬ (pki.nevents ≥ pki.max_events ∧ realloc_ok = false)) :
    kqueue_setup_filter c both = c.EVFILT_WRITE ∧
      kqueue_setup_filter c both ≠ c.EVFILT_READ ∧
      (kevent_changes (kqueue_add c pki fd both realloc_ok kevent_ret).trace).map
        (fun e => e.filter) = [c.EVFILT_WRITE] ∧
      kqueue_setup_filter c neither = 0 ∧
      kqueue_setup_filter c neither ≠ c.EVFILT_READ ∧
      kqueue_setup_filter c neither ≠ c.EVFILT_WRITE ∧
      (kevent_changes (kqueue_add c pki fd neither realloc_ok kevent_ret).trace).map
        (fun e => e.filter) = [0] ∧
      (kevent_changes (kqueue_del c pki fd neither kevent_ret).trace).map
        (fun e => e.filter) = [0] ∧
      (kqueue_add c pki fd neither realloc_ok 0).ret = 0 ∧
      (kqueue_add c pki fd neither realloc_ok 0).pki.nevents = pki.nevents + 1 ∧
      (kqueue_del c pki fd neither 0).ret = 0 ∧
      (kqueue_del c pki fd neither 0).pki.nevents = pki.nevents - 1 := by
  have hb : kqueue_setup_filter c both = c.EVFILT_WRITE := by
    simp [kqueue_setup_filter, hbW]
  have hn : kqueue_setup_filter c neither = 0 := by
    simp [kqueue_setup_filter, hnR, hnW]
  have hadd0 : (kqueue_add c pki fd neither realloc_ok 0).ret = 0 := by
    rw [kqueue_add_ret]; simp [hgrow]
  have hdel0 : (kqueue_del c pki fd neither 0).ret = 0 := by
    rw [kqueue_del_ret]; simp
  refine ⟨hb, ?_, ?_, hn, ?_, ?_, ?_, ?_, hadd0, ?_, hdel0, ?_⟩
  · rw [hb]; exact fun h => hne h.symm
  · rw [kqueue_add_changes, if_neg hgrow, hb]; simp [EV_SET]
  · rw [hn]; exact fun h => hfr h.symm
  · rw [hn]; exact fun h => hfw h.symm
  · rw [kqueue_add_changes, if_neg hgrow, hn]; simp [EV_SET]
  · rw [kqueue_del_changes, hn]; simp [EV_SET]
  · rw [kqueue_add_nevents, if_pos hadd0]
  · rw [kqueue_del_nevents, if_pos hdel0]

/-- Witness for claim C10: on a fresh backend, an add of descriptor `7` with
`E_READ | E_WRITE` and one with no direction bit at all. -/
theorem setup_filter_single_direction_witness :
    kqueue_setup_filter bsd_consts 0x03 = bsd_consts.EVFILT_WRITE ∧
      (kevent_changes (kqueue_add bsd_consts fresh_pki 7 0x03 true 0).trace).map
        (fun e => e.filter) = [bsd_consts.EVFILT_WRITE] ∧
      kqueue_setup_filter bsd_consts 0x20 = 0 ∧
      (kqueue_add bsd_consts fresh_pki 7 0x20 true 0).pki.nevents = fresh_pki.nevents + 1 :=
  ⟨(setup_filter_single_direction bsd_consts fresh_pki 7 0x03 0x20 true 0
      (by decide) (by decide) (by decide) (by decide) (by decide) (by decide) (by decide)
      (by decide)).1,
    (setup_filter_single_direction bsd_consts fresh_pki 7 0x03 0x20 true 0
      (by decide) (by decide) (by decide) (by decide) (by decide) (by decide) (by decide)
      (by decide)).2.2.1,
    (setup_filter_single_direction bsd_consts fresh_pki 7 0x03 0x20 true 0
      (by decide) (by decide) (by decide) (by decide) (by decide) (by decide) (by decide)
      (by decide)).2.2.2.1,
    (setup_filter_single_direction bsd_consts fresh_pki 7 0x03 0x20 true 0
      (by decide) (by decide) (by decide) (by decide) (by decide) (by decide) (by decide)
      (by decide)).2.2.2.2.2.2.2.2.2.1⟩

end Cheetah
